import Mathlib

set_option maxRecDepth 100000

/-
Verification of the sent2vec model implementation (gensim/models/sent2vec.py).

Shallow embedding conventions:
* A Python word (unicode string) is modelled as the list of its character
  codes, `List ℕ` (Python `ord`).  A sentence is a `List (List ℕ)` and a
  corpus is a `List (List (List ℕ))`.
* Python's unbounded integers are `ℕ`/`Int`; there is no hidden `% 2^32`
  anywhere because the source performs none.
* The open-addressing table `self.word2int` (a Python list of length
  `max_vocab_size` initialised with `-1`) is modelled as a total function
  `ℕ → Int` which is `-1` outside the bound slots.
* Loops whose termination is not structural (the linear-probing loop of
  `find`, the probabilistic marking loop of `add_ngrams_train`, the scan
  loop of `get_negative`) are modelled with explicit fuel and an `Option`
  result; `none` models non-termination of the Python loop.
* Randomness (`random.randint`, `np.random.uniform`) is modelled by
  explicit oracle parameters; theorems quantify over all oracles.
* Exceptions (`AttributeError`, `RuntimeError`, the `NameError` raised by
  reading an unassigned local, `sys.exit`) are modelled with `Except`.
-/

/-- Python exception outcomes that the modelled code can raise. -/
inductive PyError where
  | attributeError
  | runtimeError
  | nameError
  | systemExit
  | probeLoop
  deriving DecidableEq, Repr

instance {ε α : Type} [DecidableEq ε] [DecidableEq α] : DecidableEq (Except ε α) := fun a b =>
  match a, b with
  | .ok x, .ok y => if h : x = y then .isTrue (by rw [h]) else .isFalse (by simp [h])
  | .error x, .error y => if h : x = y then .isTrue (by rw [h]) else .isFalse (by simp [h])
  | .ok _, .error _ => .isFalse (by simp)
  | .error _, .ok _ => .isFalse (by simp)

namespace Sent2VecModel

/-- One vocabulary entry (`Entry` in the source).

The source class is
`class Entry: def __init__(self, word=None, count=0, subwords=[])`.
The default argument `subwords=[]` is evaluated once, when the class body is
executed, so every `Entry` created with the default (and `add` always calls
`Entry(word=word, count=1)`, using the default) holds a reference to the
single shared list object.  Consequently the `subwords` data is modelled as
one dictionary-wide list (`Dict.sharedSubwords` below), and
`Dict.subwordsOfEntry` returns that same list for every entry index. -/
structure Entry where
  word : List ℕ
  count : ℕ
  deriving DecidableEq, Repr

instance : Inhabited Entry := ⟨⟨[], 0⟩⟩

/-- State of `ModelDictionary`.

`t` (the subsampling threshold) is carried as an exact rational; it is only
consumed by the discard table (`pdiscardOf` below), which is real-valued. -/
structure Dict where
  maxVocabSize : ℕ
  maxLineSize : ℕ
  words : List Entry
  word2int : ℕ → Int
  ntokens : ℕ
  size : ℕ
  t : ℚ
  bucket : ℕ
  maxn : ℕ
  minn : ℕ
  sharedSubwords : List ℕ

/-- `ModelDictionary.__init__`: fresh dictionary. -/
def Dict.init (t : ℚ) (bucket minn maxn : ℕ) (maxVocabSize : ℕ := 30000000)
    (maxLineSize : ℕ := 1024) : Dict :=
  { maxVocabSize := maxVocabSize
    maxLineSize := maxLineSize
    words := []
    word2int := fun _ => -1
    ntokens := 0
    size := 0
    t := t
    bucket := bucket
    maxn := maxn
    minn := minn
    sharedSubwords := [] }

/-- All entries alias the single list created by the `subwords=[]` default
argument of `Entry.__init__`, so the subwords of every entry are the shared
list (see the comment on `Entry`). -/
def Dict.subwordsOfEntry (d : Dict) (_i : ℕ) : List ℕ :=
  d.sharedSubwords

/-- `ModelDictionary.hash_`: `h = 2166136261`, then per character
`h = h ^ ord(c)` followed by `h = h * 16777619`.  The source performs **no**
reduction modulo `2^32`; the value grows without bound. -/
def hash_ (word : List ℕ) : ℕ :=
  word.foldl (fun h c => (h ^^^ c) * 16777619) 2166136261

/-- Modelled from the spec: the 32-bit FNV-1a-style hash described in the
specification ("h = h XOR code(char), then h = (h * 16777619) mod 2^32,
with unsigned 32-bit wraparound arithmetic throughout").  Used only to
compare the source's `hash_` against the spec's wraparound formula. -/
def fnv32 (word : List ℕ) : ℕ :=
  word.foldl (fun h c => ((h ^^^ c) * 16777619) % 2 ^ 32) 2166136261

/-- Probing loop of `ModelDictionary.find`:
`while word2int[h] != -1 and words[word2int[h]].word != word: h = (h+1) % max_vocab_size`.
Fuel-based; `none` models an endless probe loop (possible only when the
table has no matching or free slot). -/
def findAux (d : Dict) (word : List ℕ) : ℕ → ℕ → Option ℕ
  | 0, _ => none
  | fuel + 1, h =>
    if d.word2int h ≠ -1 ∧ (d.words.getD (d.word2int h).toNat default).word ≠ word then
      findAux d word fuel ((h + 1) % d.maxVocabSize)
    else
      some h

/-- `ModelDictionary.find`: slot index for `word`, starting the probe at
`hash_(word) % max_vocab_size`. -/
def find (d : Dict) (word : List ℕ) : Option ℕ :=
  findAux d word d.maxVocabSize (hash_ word % d.maxVocabSize)

/-- `ModelDictionary.add`: increments `ntokens`; appends a fresh entry of
count 1 and binds the slot when the slot is free, otherwise increments the
resolved entry's count. -/
def add (d : Dict) (word : List ℕ) : Option Dict :=
  match find d word with
  | none => none
  | some h =>
    let d := { d with ntokens := d.ntokens + 1 }
    if d.word2int h = -1 then
      some { d with
              words := d.words ++ [{ word := word, count := 1 }]
              word2int := fun x => if x = h then (d.size : Int) else d.word2int x
              size := d.size + 1 }
    else
      some { d with
              words :=
                let i := (d.word2int h).toNat
                let e := d.words.getD i default
                d.words.set i { e with count := e.count + 1 } }

/-- `ModelDictionary.threshold`: keep entries with `count > t`, wipe the
table, and re-insert the survivors in order, reassigning dense ids. -/
def threshold (d : Dict) (t : ℕ) : Option Dict :=
  let ws := d.words.filter (fun e => decide (t < e.count))
  let init : Dict := { d with words := ws, size := 0, word2int := fun _ => -1 }
  ws.foldlM
    (fun d' e =>
      (find d' e.word).map (fun h =>
        { d' with
            word2int := fun x => if x = h then (d'.size : Int) else d'.word2int x
            size := d'.size + 1 }))
    init

/-- Inner `while k < len(word): ngram += word[k]; k += 1` of
`init_ngrams`, returning the extended ngram and the final value of the
loop variable `k`.  Fuel-based structural recursion
(`fuel = len(word) - k` always suffices). -/
def appendRestAux (word : List ℕ) : ℕ → ℕ → List ℕ → List ℕ × ℕ
  | 0, k, ngram => (ngram, k)
  | fuel + 1, k, ngram =>
    if k < word.length then
      appendRestAux word fuel (k + 1) (ngram ++ [word.getD k 0])
    else
      (ngram, k)

/-- The `while` loop of `init_ngrams` with its exact entry state. -/
def appendRest (word : List ℕ) (k : ℕ) (ngram : List ℕ) : List ℕ × ℕ :=
  appendRestAux word (word.length - k) k ngram

/-- One iteration of the `for k, n in zip(range(j, len(word)), range(1, maxn+1))`
loop body of `init_ngrams`: append `word[k]`, run the inner `while` loop
(from `k+1`), then conditionally emit `size + hash_(ngram) % bucket`.
The accumulator is `(ngram, emitted ids)`; `kn` is the zipped pair `(k, n)`. -/
def initNgramsStep (size bucket minn j : ℕ) (word : List ℕ)
    (acc : List ℕ × List ℕ) (kn : ℕ × ℕ) : List ℕ × List ℕ :=
  let ngram := acc.1 ++ [word.getD kn.1 0]
  let r := appendRest word (kn.1 + 1) ngram
  if minn ≤ kn.2 ∧ ¬(kn.2 = 1 ∧ (j = 0 ∨ r.2 = word.length)) then
    (r.1, acc.2 ++ [size + hash_ r.1 % bucket])
  else
    (r.1, acc.2)

/-- The character-ngram ids emitted by `init_ngrams` for a single word
(everything appended after the leading own word id). -/
def initNgramsWord (size bucket minn maxn : ℕ) (word : List ℕ) : List ℕ :=
  (List.range word.length).flatMap fun j =>
    (((List.range' j (word.length - j)).zip (List.range' 1 maxn)).foldl
      (initNgramsStep size bucket minn j word) ([], [])).2

/-- `ModelDictionary.init_ngrams`: for each retained word id `i` (in order)
append `i` and then the word's character-ngram ids to the shared subwords
list (shared because of the `subwords=[]` default argument, see `Entry`). -/
def init_ngrams (d : Dict) : Dict :=
  { d with
      sharedSubwords := d.sharedSubwords ++
        (List.range d.size).flatMap fun i =>
          i :: initNgramsWord d.size d.bucket d.minn d.maxn
            ((d.words.getD i default).word) }

/-- Errors surfaced by `ModelDictionary.read`. -/
inductive ReadErr where
  | probeLoop
  | emptyVocab
  deriving DecidableEq, Repr

def liftO {α : Type} (o : Option α) : Except ReadErr α :=
  match o with
  | none => .error .probeLoop
  | some a => .ok a

/-- One token of the `read` loop: `add(word)`, then (the million-token
progress log is non-functional and omitted) the progressive-pruning check
`if self.size > 0.75 * self.max_vocab_size`.  The comparison of the integer
`size` against the float `0.75 * max_vocab_size` is written in the exact
cross-multiplied form `3 * max_vocab_size < 4 * size` (the default
`max_vocab_size = 30000000` makes `0.75 * max_vocab_size` exact in floating
point, so this is the same predicate). -/
def readStep (acc : Except ReadErr (Dict × ℕ)) (w : List ℕ) :
    Except ReadErr (Dict × ℕ) := do
  let (d, minThreshold) ← acc
  let d ← liftO (add d w)
  if 3 * d.maxVocabSize < 4 * d.size then
    let minThreshold := minThreshold + 1
    let d ← liftO (threshold d minThreshold)
    pure (d, minThreshold)
  else
    pure (d, minThreshold)

/-- `ModelDictionary.read`: stream all tokens through `add` with progressive
pruning, then apply the final `threshold(min_count)`, build the subwords
(`init_ngrams`), and fail (`sys.exit`, modelled as `emptyVocab`) when no
word survived.  `init_table_discard` only fills the real-valued `pdiscard`
array; it reads but never writes the fields modelled here, and is modelled
separately as `pdiscardOf`. -/
def read (d : Dict) (sentences : List (List (List ℕ))) (minCount : ℕ) :
    Except ReadErr Dict := do
  let (d, _) ← (sentences.flatMap fun s => s).foldl readStep (.ok (d, 1))
  let d ← liftO (threshold d minCount)
  let d := init_ngrams d
  if d.size = 0 then .error .emptyVocab else pure d

/-- `ModelDictionary.init_table_discard`:
`pdiscard[i] = sqrt(t/f) + t/f` with `f = count_i / ntokens`.  Real-valued,
hence kept outside the computable `Dict` state; `read` invokes it between
the final `threshold` and `init_ngrams`, neither of which changes any
field it reads (`words`, `ntokens`), so deriving it from the final state
is faithful. -/
noncomputable def pdiscardOf (d : Dict) : List ℝ :=
  (List.range d.size).map fun i =>
    let f : ℝ := ((d.words.getD i default).count : ℝ) / (d.ntokens : ℝ)
    Real.sqrt ((d.t : ℝ) / f) + (d.t : ℝ) / f

/-- `ModelDictionary.get_line`: resolve tokens through `find`; out-of-vocabulary
tokens contribute only to `hashes`; resolution stops after
`max_line_size` resolved tokens.  Returns `(ntokens, hashes, words)`. -/
def getLineAux (d : Dict) :
    List (List ℕ) → ℕ → List ℕ → List ℕ → Option (ℕ × List ℕ × List ℕ)
  | [], ntokens, hashes, words => some (ntokens, hashes, words)
  | w :: rest, ntokens, hashes, words =>
    match find d w with
    | none => none
    | some h =>
      let wid := d.word2int h
      if wid < 0 then
        getLineAux d rest ntokens (hashes ++ [hash_ w]) words
      else
        let ntokens := ntokens + 1
        let words := words ++ [wid.toNat]
        let hashes := hashes ++ [hash_ w]
        if d.maxLineSize < ntokens then some (ntokens, hashes, words)
        else getLineAux d rest ntokens hashes words

/-- `ModelDictionary.get_line`. -/
def get_line (d : Dict) (sentence : List (List ℕ)) : Option (ℕ × List ℕ × List ℕ) :=
  getLineAux d sentence 0 [] []

end Sent2VecModel

namespace Sent2VecModel

/-! ### C2: the word hash -/

lemma xor_mod_two_pow (h c n : ℕ) (hc : c < 2 ^ n) :
    (h ^^^ c) % 2 ^ n = h % 2 ^ n ^^^ c := by
  apply Nat.eq_of_testBit_eq
  intro i
  rcases Nat.lt_or_ge i n with hi | hi
  · simp [Nat.testBit_mod_two_pow, Nat.testBit_xor, hi]
  · have hc' : c.testBit i = false :=
      Nat.testBit_eq_false_of_lt (lt_of_lt_of_le hc (Nat.pow_le_pow_right (by norm_num) hi))
    have hni : ¬ i < n := not_lt.mpr hi
    simp [Nat.testBit_mod_two_pow, Nat.testBit_xor, hni, hc']

lemma hash_foldl_mod (word : List ℕ) :
    ∀ h : ℕ, (∀ c ∈ word, c < 2 ^ 32) →
      (word.foldl (fun h c => (h ^^^ c) * 16777619) h) % 2 ^ 32 =
      word.foldl (fun h c => ((h ^^^ c) * 16777619) % 2 ^ 32) (h % 2 ^ 32) := by
  induction word with
  | nil => intro h _; simp
  | cons c tl ih =>
    intro h hlt
    have hc : c < 2 ^ 32 := hlt c (List.mem_cons_self c tl)
    have htl : ∀ x ∈ tl, x < 2 ^ 32 := fun x hx => hlt x (List.mem_cons_of_mem c hx)
    simp only [List.foldl_cons]
    rw [ih ((h ^^^ c) * 16777619) htl]
    have hinit : ((h ^^^ c) * 16777619) % 2 ^ 32 = ((h % 2 ^ 32 ^^^ c) * 16777619) % 2 ^ 32 := by
      rw [← xor_mod_two_pow h c 32 hc, Nat.mod_mul_mod]
    rw [hinit]

/-- C2 (counterexample): the claim "the returned value is always less than
2^32" is false on the code: already for the one-character word "a"
(`ord 'a' = 97`) the value `hash_("a") = (2166136261 XOR 97) * 16777619`
exceeds `2^32`, because the source never reduces modulo `2^32`. -/
theorem c2_counterexample : ¬ (hash_ [97] < 2 ^ 32) := by decide

/-- C2 (amended): `hash_` starts from `h = 2166136261` and maps each
character code to `h := (h XOR code) * 16777619` over **unbounded** integers
— the spec's "unsigned 32-bit wraparound throughout" is not performed and
the result can be `≥ 2^32`.  However the low 32 bits agree with the spec's
wraparound formula: for every word whose character codes are below `2^32`,
`hash_(word) mod 2^32` equals the 32-bit FNV-1a-style value `fnv32(word)`. -/
theorem c2_amended (word : List ℕ) (hcodes : ∀ c ∈ word, c < 2 ^ 32) :
    hash_ word % 2 ^ 32 = fnv32 word := by
  have h := hash_foldl_mod word 2166136261 hcodes
  simpa [hash_, fnv32] using h

/-- C2 (witness): the amended theorem applied to the concrete word "ab". -/
theorem c2_amended_witness :
    (∀ c ∈ [97, 98], c < 2 ^ 32) ∧ hash_ [97, 98] % 2 ^ 32 = fnv32 [97, 98] :=
  ⟨by decide, c2_amended [97, 98] (by decide)⟩

/-! ### C4: the vocabulary-building scenario -/

/-- The dictionary constructed by `Sent2Vec.build_vocab` before `read`:
`ModelDictionary(t=0.0001, bucket=2000000, maxn=6, minn=3)` with the
default `max_vocab_size=30000000`. -/
def dictDefault : Dict := Dict.init (1 / 10000) 2000000 3 6

/-- The corpus `[["a", "b", "a", "b", "c"]]` as character-code lists. -/
def corpusABABC : List (List (List ℕ)) := [[[97], [98], [97], [98], [99]]]

/-- C4 (counterexample): building the vocabulary from
`[["a","b","a","b","c"]]` with `min_count=1` does **not** yield `size=3`:
the final `threshold(min_count)` keeps only entries with `count > 1`, so
the word "c" (count 1) is dropped and `size = 2`. -/
theorem c4_counterexample :
    ¬ ((read dictDefault corpusABABC 1).map Dict.size = .ok 3) := by decide

/-- C4 (amended): building the vocabulary from `[["a","b","a","b","c"]]`
with `min_count=1` yields `size=2` (only "a" and "b" survive the final
`threshold(1)`, which keeps entries with `count > 1`) and `ntokens=5`, and
the entry for word "a" (id 0) has `count=2`. -/
theorem c4_amended :
    (read dictDefault corpusABABC 1).map
        (fun d => (d.size, d.ntokens, (d.words.getD 0 default).word,
                   (d.words.getD 0 default).count)) =
      .ok (2, 5, [97], 2) := by decide

/-! ### C1: the character-ngram generation of `init_ngrams` -/

/-- The string actually hashed by `init_ngrams` at offset `j` after `n`
loop iterations: the concatenation of the successive suffixes
`word[j:] + word[j+1:] + ... + word[j+n-1:]`.  (Each iteration of the
`for k, n in zip(...)` loop appends `word[k]` and then the inner
`while k < len(word)` loop appends the whole rest of the word, so the
accumulated `ngram` is never the contiguous substring of length `n`.) -/
def suffixConcat (word : List ℕ) (j n : ℕ) : List ℕ :=
  (List.range n).flatMap fun t => word.drop (j + t)

lemma suffixConcat_succ (word : List ℕ) (j n : ℕ) :
    suffixConcat word j (n + 1) = suffixConcat word j n ++ word.drop (j + n) := by
  simp [suffixConcat, List.range_succ]

lemma appendRestAux_spec (word : List ℕ) :
    ∀ fuel k ngram, word.length - k ≤ fuel →
      appendRestAux word fuel k ngram = (ngram ++ word.drop k, max k word.length) := by
  intro fuel
  induction fuel with
  | zero =>
    intro k ngram hk
    have hle : word.length ≤ k := by omega
    simp [appendRestAux, List.drop_eq_nil_of_le hle, Nat.max_eq_left hle]
  | succ fuel ih =>
    intro k ngram hk
    by_cases hlt : k < word.length
    · have h1 : word.length - (k + 1) ≤ fuel := by omega
      rw [appendRestAux, if_pos hlt, ih (k + 1) (ngram ++ [word.getD k 0]) h1]
      rw [List.getD_eq_getElem word 0 hlt, List.append_assoc, List.singleton_append,
        ← List.drop_eq_getElem_cons hlt]
      have hmax : max (k + 1) word.length = max k word.length := by omega
      rw [hmax]
    · have hle : word.length ≤ k := Nat.not_lt.mp hlt
      simp [appendRestAux, hlt, List.drop_eq_nil_of_le hle, Nat.max_eq_left hle]

lemma appendRest_spec (word : List ℕ) (k ngram) :
    appendRest word k ngram = (ngram ++ word.drop k, max k word.length) :=
  appendRestAux_spec word (word.length - k) k ngram le_rfl

lemma zip_range'_eq (m : ℕ) :
    ∀ (n a b : ℕ), (List.range' a m).zip (List.range' b n) =
      (List.range (min m n)).map (fun t => (a + t, b + t)) := by
  induction m with
  | zero => intro n a b; simp
  | succ m ih =>
    intro n a b
    cases n with
    | zero => simp
    | succ n =>
      rw [List.range'_succ, List.range'_succ, List.zip_cons_cons, ih n (a + 1) (b + 1),
        Nat.succ_min_succ, List.range_succ_eq_map, List.map_cons, List.map_map]
      refine congrArg₂ List.cons (by simp) ?_
      refine List.map_congr_left fun t _ => ?_
      simp only [Function.comp_apply, Prod.mk.injEq, Nat.succ_eq_add_one]
      omega

/-- One loop iteration of `init_ngrams` at offset `j`, iteration count
`p + 1`, starting from the accumulated ngram `suffixConcat word j p`. -/
lemma initNgramsStep_spec (size bucket minn j p : ℕ) (word : List ℕ) (acc : List ℕ)
    (hidx : j + p < word.length) :
    initNgramsStep size bucket minn j word (suffixConcat word j p, acc) (j + p, p + 1)
      = (suffixConcat word j (p + 1),
         if minn ≤ p + 1 ∧ p + 1 ≠ 1 then
           acc ++ [size + hash_ (suffixConcat word j (p + 1)) % bucket]
         else acc) := by
  have hng :
      suffixConcat word j p ++ [word.getD (j + p) 0] ++ word.drop (j + p + 1)
        = suffixConcat word j (p + 1) := by
    rw [List.getD_eq_getElem word 0 hidx, List.append_assoc, List.singleton_append,
      ← List.drop_eq_getElem_cons hidx, ← suffixConcat_succ]
  have hmax : max (j + p + 1) word.length = word.length := by omega
  simp only [initNgramsStep, appendRest_spec, hmax, hng]
  by_cases hc : minn ≤ p + 1 ∧ p + 1 ≠ 1
  · rw [if_pos ⟨hc.1, fun hand => hc.2 hand.1⟩, if_pos hc]
  · rw [if_neg ?_, if_neg hc]
    intro h
    exact hc ⟨h.1, fun h1 => h.2 ⟨h1, Or.inr trivial⟩⟩

lemma initNgrams_fold (size bucket minn j m : ℕ) (word : List ℕ) (out : List ℕ) :
    ∀ cnt, j + m + cnt ≤ word.length →
      List.foldl (initNgramsStep size bucket minn j word)
          (suffixConcat word j m, out)
          ((List.range cnt).map fun t => (j + m + t, 1 + m + t))
        = (suffixConcat word j (m + cnt),
           out ++ ((List.range' (1 + m) cnt).filter
               (fun n => decide (minn ≤ n ∧ n ≠ 1))).map
             (fun n => size + hash_ (suffixConcat word j n) % bucket)) := by
  intro cnt
  induction cnt with
  | zero => simp [suffixConcat]
  | succ cnt ih =>
    intro hle
    have hcnt : j + m + cnt ≤ word.length := by omega
    have hidx : j + (m + cnt) < word.length := by omega
    rw [List.range_succ, List.map_append, List.foldl_append, ih hcnt]
    simp only [List.map_cons, List.map_nil, List.foldl_cons, List.foldl_nil]
    have hp1 : j + m + cnt = j + (m + cnt) := by omega
    have hp2 : 1 + m + cnt = (m + cnt) + 1 := by omega
    rw [hp1, hp2, initNgramsStep_spec size bucket minn j (m + cnt) word _ hidx]
    rw [List.range'_concat, List.filter_append, List.map_append, ← List.append_assoc]
    have hm1 : m + (cnt + 1) = m + cnt + 1 := by omega
    have hsingle : 1 + m + 1 * cnt = m + cnt + 1 := by omega
    rw [hm1, hsingle]
    by_cases hc : minn ≤ m + cnt + 1 ∧ m + cnt + 1 ≠ 1
    · rw [if_pos hc]
      have hf : List.filter (fun n => decide (minn ≤ n ∧ n ≠ 1)) [m + cnt + 1]
          = [m + cnt + 1] := by
        simp [List.filter_cons, hc.1, hc.2]
      rw [hf]
      simp
    · rw [if_neg hc]
      have hf : List.filter (fun n => decide (minn ≤ n ∧ n ≠ 1)) [m + cnt + 1]
          = [] := by
        simp only [List.filter_cons, List.filter_nil]
        rw [if_neg (by simpa using hc)]
      rw [hf]
      simp

/-- C1 (counterexample): the claim's "in particular" instance is false.
For the vocabulary built from the single word "ab" with `minn=1, maxn=2`,
the single-character n-grams "a" and "b" are **not** among the appended
subword ids (the only appended ngram id is `size + hash_("abb") % bucket`,
see `c1_amended`). -/
theorem c1_counterexample :
    (read (Dict.init (1 / 10000) 2000000 1 2) [[[97, 98]]] 0).map
        (fun d => decide (d.size + hash_ [97] % d.bucket ∉ d.subwordsOfEntry 0 ∧
                          d.size + hash_ [98] % d.bucket ∉ d.subwordsOfEntry 0))
      = .ok true := by decide

/-- C1 (amended): for every retained word, `init_ngrams` appends, for each
starting character offset `j` and each iteration count `n` with
`max(minn, 2) ≤ n ≤ min(maxn, len(word) - j)`, the id
`size + hash_(word[j:] + word[j+1:] + ... + word[j+n-1:]) mod bucket`.
The hashed string is the concatenation of successive suffixes of the word,
not the contiguous substring of length `n` (the inner `while` loop always
consumes the rest of the word), and because the loop variable `k` therefore
always equals `len(word)` when the emission condition is evaluated, the
condition `n == 1 and (j == 0 or k == len(word))` reduces to `n == 1`:
**no** length-1 iteration is ever emitted, not even at word boundaries.
In particular for "ab" with `minn=1, maxn=2` the only appended id is
`size + hash_("abb") % bucket`, and "a"/"b" are not included. -/
theorem c1_amended (size bucket minn maxn : ℕ) (word : List ℕ) :
    initNgramsWord size bucket minn maxn word =
      (List.range word.length).flatMap fun j =>
        ((List.range' 1 (min (word.length - j) maxn)).filter
            (fun n => decide (minn ≤ n ∧ n ≠ 1))).map
          (fun n => size + hash_ (suffixConcat word j n) % bucket) := by
  unfold initNgramsWord
  rw [List.flatMap_def, List.flatMap_def]
  refine congrArg List.flatten (List.map_congr_left fun j hj => ?_)
  have hjlt : j < word.length := List.mem_range.mp hj
  rw [zip_range'_eq (word.length - j) maxn j 1]
  have hfold := initNgrams_fold size bucket minn j 0 word []
    (min (word.length - j) maxn) (by omega)
  have hfun : (fun t => (j + 0 + t, 1 + 0 + t)) = (fun t : ℕ => (j + t, 1 + t)) := by
    funext t
    simp
  rw [hfun] at hfold
  have hinit : suffixConcat word j 0 = ([] : List ℕ) := rfl
  rw [hinit] at hfold
  rw [hfold]
  simp

/-! ### C7: the `subwords` sequences of the vocabulary entries -/

/-- C7 (code_bug evidence): after building the vocabulary from
`[["a","b","a","b","c"]]` (retained words "a" id 0 and "b" id 1), the
`subwords` of entry 0 and of entry 1 are the **same** list `[0, 1]`
(they alias the single list created by the `subwords=[]` default argument
of `Entry.__init__`), so entry 1's subwords sequence begins with `0` — the
id of a *different* word — and the entries do not hold independent
sequences each starting with their own id. -/
theorem c7_bug :
    (read dictDefault corpusABABC 1).map
        (fun d => (d.size, d.subwordsOfEntry 0, d.subwordsOfEntry 1)) =
      .ok (2, [0, 1], [0, 1]) := by decide

/-! ### C3 / C6: the training pipeline (`Sent2Vec.train`) -/

/-- Mutable state of the `job_producer` closure inside `Sent2Vec.train`. -/
structure ProducerState where
  jobBatch : List (List (List ℕ))
  batchSize : ℕ
  pushedWords : ℕ
  nextLr : ℚ
  jobs : List (List (List (List ℕ)) × ℚ)
  deriving DecidableEq

/-- One sentence of the `for sent_idx, sentence in enumerate(sentences)`
loop of `job_producer`.  When the sentence does not fit, the current batch
is sealed as a job at the current `next_lr`; then, if `end_lr < next_lr`,
the learning rate is recomputed from
`pushed_words += len(job_batch)` — **the number of sentences in the
batch**, not its word count — and
`next_lr = max(end_lr, start_lr - (start_lr - end_lr) * pushed_words / total_words)`.
`totalWords` is `none` when `epochs == 1`: `train` assigns the local
`total_words` only under `if self.epochs > 1`, so reading it here raises a
`NameError` (modelled as `PyError.nameError`). -/
def job_producer_step (batchWords : ℕ) (startLr endLr : ℚ) (totalWords : Option ℕ)
    (acc : Except PyError ProducerState) (sentence : List (List ℕ)) :
    Except PyError ProducerState := do
  let st ← acc
  let sentenceLength := sentence.length
  if st.batchSize + sentenceLength ≤ batchWords then
    pure { st with jobBatch := st.jobBatch ++ [sentence],
                   batchSize := st.batchSize + sentenceLength }
  else
    let jobs := st.jobs ++ [(st.jobBatch, st.nextLr)]
    if endLr < st.nextLr then
      match totalWords with
      | none => .error .nameError
      | some tw =>
        let pushedWords := st.pushedWords + st.jobBatch.length
        let progress : ℚ := (pushedWords : ℚ) / (tw : ℚ)
        let nextLr := max endLr (startLr - (startLr - endLr) * progress)
        pure { jobBatch := [sentence], batchSize := sentenceLength,
               pushedWords := pushedWords, nextLr := nextLr, jobs := jobs }
    else
      pure { st with jobBatch := [sentence], batchSize := sentenceLength, jobs := jobs }

/-- `job_producer`: batch the sentence stream into jobs (each job carries
the learning rate in effect when it was enqueued); the final partial batch
is always sealed (`if job_batch:`).  The one-sentinel-per-worker shutdown
messages are not part of the job list. -/
def job_producer (batchWords : ℕ) (startLr endLr : ℚ) (totalWords : Option ℕ)
    (sentences : List (List (List ℕ))) :
    Except PyError (List (List (List (List ℕ)) × ℚ)) := do
  let st ← sentences.foldl (job_producer_step batchWords startLr endLr totalWords)
    (.ok { jobBatch := [], batchSize := 0, pushedWords := 0, nextLr := startLr, jobs := [] })
  if st.jobBatch ≠ [] then pure (st.jobs ++ [(st.jobBatch, st.nextLr)]) else pure st.jobs

/-- C3 (code_bug evidence): with `batch_words=6`, `lr=1/5`, `min_lr=1/1000`,
`total_words=14` and the corpus `[[d,e,f],[g,h,i],[j]]` (three sentences of
3, 3 and 1 words), the first sealed batch holds 2 sentences and 6 words.
The code then sets `pushed_words += len(job_batch) = 2` (sentences), so the
second job's learning rate is
`max(1/1000, 1/5 - (1/5 - 1/1000) * (2/14)) = 1201/7000`, whereas the
claimed word-based schedule would give
`max(1/1000, 1/5 - (1/5 - 1/1000) * (6/14)) = 803/7000 ≠ 1201/7000`. -/
theorem c3_bug :
    (job_producer 6 (1 / 5) (1 / 1000) (some 14)
          [[[100], [101], [102]], [[103], [104], [105]], [[106]]]).map
        (List.map Prod.snd)
        = .ok [1 / 5, 1201 / 7000]
    ∧ (1201 / 7000 : ℚ) = max (1 / 1000) (1 / 5 - (1 / 5 - 1 / 1000) * (2 / 14))
    ∧ (1201 / 7000 : ℚ) ≠ max (1 / 1000) (1 / 5 - (1 / 5 - 1 / 1000) * (6 / 14)) := by
  refine ⟨?_, by rw [max_eq_right (by norm_num)]; norm_num,
    by rw [max_eq_right (by norm_num)]; norm_num⟩
  norm_num [job_producer, job_producer_step, Except.map, max_def,
    bind, Except.bind, pure, Except.pure]

/-- The per-job word tally computed by the slow `_do_train_job`:
`local_token_count` sums `get_line`'s resolved-token counts over the job's
sentences.  (It is independent of the random discard draws and of the
`update` arithmetic, which touch only `wi`/`wo`/`negpos`.) -/
def jobTally (d : Dict) (batch : List (List (List ℕ))) : Option ℕ :=
  (batch.mapM (fun s => (get_line d s).map (fun r => r.1))).map List.sum

/-- Observable outcome of one `Sent2Vec.train` call with a single worker. -/
structure TrainRunResult where
  jobCount : ℕ
  reportCount : ℕ
  outcome : Except PyError ℕ
  deriving DecidableEq

/-- `Sent2Vec.train` for `workers = 1`, deterministic pipeline view:
the producer emits `jobs`; the single worker processes them in order and
pushes one progress report per job followed by one `None` sentinel
(`reportCount` counts the data reports the main loop consumes before the
worker's completion marker).  `total_words` is assigned only under
`if self.epochs > 1`; the corpus-change check
`if total_words != raw_word_count` after the main loop reads it
unconditionally, so with `epochs == 1` the call raises
`UnboundLocalError`/`NameError` (modelled `PyError.nameError`) instead of
returning `trained_word_count`.  (When `epochs > 1` the input stream is
repeated `epochs` times; `utils.RepeatCorpusNTimes` is not under `src/`
and is modelled from the spec: "logically repeats the input stream that
many times".) -/
def train_run (d : Dict) (epochs batchWords : ℕ) (startLr endLr : ℚ)
    (sentences : List (List (List ℕ))) : TrainRunResult :=
  let totalWords : Option ℕ := if 1 < epochs then some (d.ntokens * epochs) else none
  let sents := if 1 < epochs then (List.replicate epochs sentences).flatten else sentences
  match job_producer batchWords startLr endLr totalWords sents with
  | .error e =>
    -- the producer thread dies before posting the worker sentinels; the
    -- main loop blocks forever.  Modelled as surfacing the producer error.
    { jobCount := 0, reportCount := 0, outcome := .error e }
  | .ok jobs =>
    match jobs.mapM (fun job => jobTally d job.1) with
    | none => { jobCount := jobs.length, reportCount := 0, outcome := .error .probeLoop }
    | some tallies =>
      let trainedWordCount := tallies.sum
      match totalWords with
      | none =>
        { jobCount := jobs.length, reportCount := jobs.length,
          outcome := .error .nameError }
      | some _ =>
        { jobCount := jobs.length, reportCount := jobs.length,
          outcome := .ok trainedWordCount }

/-- The dictionary produced by building the vocabulary from
`[["a","b","a","b","c"]]` with `min_count=1` (see `c4_amended`: the `read`
succeeds, so the fallback default is never used). -/
def dictABABC : Dict := ((read dictDefault corpusABABC 1).toOption).getD dictDefault

/-- C6 (code_bug evidence): with `workers=1`, `epochs=1` and
`batch_words=10000` larger than the 5-word corpus, training enqueues
exactly one job and the main loop consumes exactly one progress report
before the worker's shutdown marker — but `train` then raises
`NameError` on `total_words` (assigned only when `epochs > 1`) at the
corpus-change check instead of returning the trained word count.  The
count it would have returned is `4 ≤ 5 = ntokens` (the out-of-vocabulary
token "c" is dropped by `get_line`). -/
theorem c6_bug :
    train_run dictABABC 1 10000 (1 / 5) (1 / 1000) corpusABABC
        = { jobCount := 1, reportCount := 1, outcome := .error .nameError }
    ∧ jobTally dictABABC [[[97], [98], [97], [98], [99]]] = some 4
    ∧ dictABABC.ntokens = 5 := by decide

/-! ### C5: `train` on an unbuilt model -/

/-- The prologue of `Sent2Vec.train` as a function of `self.dict`
(`None` while no vocabulary has been built).  After the `FAST_VERSION`
warning (pure logging) the source runs
`logger.info("training model with %i workers on %i vocabulary and %i features", self.workers, self.dict.size, self.vector_size)`,
whose arguments are evaluated eagerly — on `None` this raises
`AttributeError` **before** reaching the guard
`if not self.dict: raise RuntimeError(...)`. -/
def train_prologue (dict : Option Dict) : Except PyError ℕ := do
  let size ← match dict with
    | none => Except.error PyError.attributeError
    | some d => Except.ok d.size
  if dict.isNone then Except.error PyError.runtimeError else Except.ok size

/-- C5 (code_bug evidence): invoking `train` in the UNBUILT state
(`self.dict is None`) raises `AttributeError` from the logging call that
reads `self.dict.size`, not the `RuntimeError` of the dead guard below it;
on any built dictionary the prologue passes. -/
theorem c5_bug :
    train_prologue none = .error .attributeError
    ∧ train_prologue none ≠ .error .runtimeError
    ∧ ∀ d : Dict, train_prologue (some d) = .ok d.size :=
  ⟨rfl, by decide, fun d => rfl⟩

/-! ### C9: `get_negative` and the negative-sampling table -/

/-- The scan loop of `Sent2Vec.get_negative`:
`while True: negative = negatives[negpos]; negpos = (negpos+1) % len(negatives); if target != negative: break`.
Fuel-based; `none` models the loop running forever.  `negatives.length`
fuel always suffices for termination (the cursor visits every slot). -/
def getNegativeAux (negatives : List ℕ) (target : ℕ) : ℕ → ℕ → Option (ℕ × ℕ)
  | 0, _ => none
  | fuel + 1, pos =>
    let negative := negatives.getD pos 0
    let pos' := (pos + 1) % negatives.length
    if target ≠ negative then some (negative, pos')
    else getNegativeAux negatives target fuel pos'

/-- `Sent2Vec.get_negative`: returns the drawn id and the advanced shared
cursor `negpos`. -/
def get_negative (negatives : List ℕ) (negpos target : ℕ) : Option (ℕ × ℕ) :=
  getNegativeAux negatives target negatives.length negpos

/-- Python `counts[i] ** 0.5`. -/
noncomputable def negWeight (c : ℕ) : ℝ := Real.sqrt c

/-- `z = sum(counts[i] ** 0.5)` in `init_table_negatives`. -/
noncomputable def negZ (counts : List ℕ) : ℝ := (counts.map negWeight).sum

/-- The number of copies of id `i` allocated by `init_table_negatives`:
`int(c * negative_table_size / z) + 1` — `int()` truncates the nonnegative
float towards zero, i.e. a floor.  (In Python `z = 0` would raise
`ZeroDivisionError`; that needs every retained count to be zero, which the
theorem's count-positivity hypothesis rules out.) -/
noncomputable def negCopies (tableSize : ℕ) (counts : List ℕ) (i : ℕ) : ℕ :=
  ⌊negWeight (counts.getD i 0) * (tableSize : ℝ) / negZ counts⌋₊ + 1

/-- `Sent2Vec.init_table_negatives` before the final shuffle: `negCopies i`
copies of each id `i`, concatenated in id order.  `self.random.shuffle`
permutes this list; theorems therefore quantify over an arbitrary
permutation of it. -/
noncomputable def init_table_negatives (tableSize : ℕ) (counts : List ℕ) : List ℕ :=
  (List.range counts.length).flatMap fun i =>
    List.replicate (negCopies tableSize counts i) i

lemma mem_init_table_negatives (tableSize : ℕ) (counts : List ℕ) (i : ℕ)
    (hi : i < counts.length) : i ∈ init_table_negatives tableSize counts := by
  unfold init_table_negatives
  rw [List.mem_flatMap]
  refine ⟨i, List.mem_range.mpr hi, List.mem_replicate.mpr ⟨?_, rfl⟩⟩
  simp [negCopies]

lemma getNegativeAux_none (negatives : List ℕ) (target : ℕ)
    (hall : ∀ x ∈ negatives, x = target) :
    ∀ fuel pos, pos < negatives.length →
      getNegativeAux negatives target fuel pos = none := by
  intro fuel
  induction fuel with
  | zero => intro pos _; rfl
  | succ fuel ih =>
    intro pos hpos
    have hmem : negatives.getD pos 0 ∈ negatives := by
      rw [List.getD_eq_getElem _ _ hpos]
      exact List.getElem_mem hpos
    have heq : negatives.getD pos 0 = target := hall _ hmem
    simp only [getNegativeAux]
    rw [if_neg (not_not_intro heq.symm)]
    exact ih _ (Nat.mod_lt _ (by omega))

lemma getNegativeAux_some (negatives : List ℕ) (target : ℕ) :
    ∀ fuel pos r p, pos < negatives.length →
      getNegativeAux negatives target fuel pos = some (r, p) →
      r ≠ target ∧ r ∈ negatives := by
  intro fuel
  induction fuel with
  | zero => intro pos r p _ h; exact absurd h (by simp [getNegativeAux])
  | succ fuel ih =>
    intro pos r p hpos h
    simp only [getNegativeAux] at h
    by_cases hne : target ≠ negatives.getD pos 0
    · rw [if_pos hne] at h
      have hr : negatives.getD pos 0 = r := congrArg Prod.fst (Option.some.inj h)
      have hmem : negatives.getD pos 0 ∈ negatives := by
        rw [List.getD_eq_getElem _ _ hpos]
        exact List.getElem_mem hpos
      exact ⟨hr ▸ Ne.symm hne, hr ▸ hmem⟩
    · rw [if_neg hne] at h
      exact ih _ r p (Nat.mod_lt _ (by omega)) h

lemma getNegativeAux_term (negatives : List ℕ) (target : ℕ) :
    ∀ fuel pos i, pos < negatives.length → i < fuel →
      negatives.getD ((pos + i) % negatives.length) 0 ≠ target →
      ∃ r p, getNegativeAux negatives target fuel pos = some (r, p) := by
  intro fuel
  induction fuel with
  | zero => intro pos i _ hi _; omega
  | succ fuel ih =>
    intro pos i hpos hi hne
    simp only [getNegativeAux]
    by_cases h : target ≠ negatives.getD pos 0
    · exact ⟨_, _, by rw [if_pos h]⟩
    · rw [if_neg h]
      push_neg at h
      have hi0 : i ≠ 0 := by
        intro h0
        apply hne
        rw [h0, Nat.add_zero, Nat.mod_eq_of_lt hpos, ← h]
      obtain ⟨i', rfl⟩ : ∃ i', i = i' + 1 := ⟨i - 1, by omega⟩
      apply ih ((pos + 1) % negatives.length) i' (Nat.mod_lt _ (by omega)) (by omega)
      have harith : ((pos + 1) % negatives.length + i') % negatives.length
          = (pos + (i' + 1)) % negatives.length := by
        rw [Nat.mod_add_mod]
        have : pos + 1 + i' = pos + (i' + 1) := by omega
        rw [this]
      rw [harith]
      exact hne

lemma exists_scan_index (negatives : List ℕ) (target pos : ℕ)
    (hpos : pos < negatives.length) (hx : ∃ x ∈ negatives, x ≠ target) :
    ∃ i < negatives.length,
      negatives.getD ((pos + i) % negatives.length) 0 ≠ target := by
  obtain ⟨x, hxmem, hxne⟩ := hx
  obtain ⟨k, hk, hkx⟩ := List.getElem_of_mem hxmem
  refine ⟨(negatives.length + k - pos) % negatives.length,
    Nat.mod_lt _ (by omega), ?_⟩
  have harith : (pos + (negatives.length + k - pos) % negatives.length)
      % negatives.length = k := by
    rw [Nat.add_mod_mod]
    have h1 : pos + (negatives.length + k - pos) = negatives.length + k := by omega
    rw [h1, Nat.add_mod_left, Nat.mod_eq_of_lt hk]
  rw [harith, List.getD_eq_getElem _ _ hk, hkx]
  exact hxne

/-- C9 (confirmed): `get_negative(target)` terminates exactly when the
`negatives` array holds at least one id different from `target` (if every
entry equals `target` the scan loop runs forever, i.e. returns `none` for
every fuel); whenever it terminates it returns an id different from
`target` (with the shared cursor advanced).  And after
`init_table_negatives` on a vocabulary with at least two distinct retained
words (each retained count is ≥ 1), every id below the vocabulary size —
in particular both 0 and 1 — occurs in the table (the `+ 1` in the copy
count guarantees at least one copy each), so for every target, and under
any shuffle permutation of the table, the termination condition holds. -/
theorem c9_get_negative (negatives : List ℕ) (negpos target : ℕ)
    (hpos : negpos < negatives.length) :
    ((∃ x ∈ negatives, x ≠ target) ↔
        ∃ r p, get_negative negatives negpos target = some (r, p))
    ∧ ((∀ x ∈ negatives, x = target) →
        ∀ fuel pos, pos < negatives.length →
          getNegativeAux negatives target fuel pos = none)
    ∧ (∀ r p, get_negative negatives negpos target = some (r, p) → r ≠ target)
    ∧ (∀ (tableSize : ℕ) (counts : List ℕ), 2 ≤ counts.length →
        (∀ c ∈ counts, 1 ≤ c) →
        ∀ (t : ℕ) (l : List ℕ), l.Perm (init_table_negatives tableSize counts) →
          ∃ x ∈ l, x ≠ t) := by
  refine ⟨⟨?_, ?_⟩, ?_, ?_, ?_⟩
  · intro hx
    obtain ⟨i, hi, hne⟩ := exists_scan_index negatives target negpos hpos hx
    exact getNegativeAux_term negatives target negatives.length negpos i hpos hi hne
  · rintro ⟨r, p, hrp⟩
    have h := getNegativeAux_some negatives target negatives.length negpos r p hpos hrp
    exact ⟨r, h.2, h.1⟩
  · exact fun hall fuel pos hp => getNegativeAux_none negatives target hall fuel pos hp
  · intro r p hrp
    exact (getNegativeAux_some negatives target negatives.length negpos r p hpos hrp).1
  · intro tableSize counts hlen _hcounts t l hperm
    have h0 : (0 : ℕ) ∈ l :=
      hperm.mem_iff.mpr (mem_init_table_negatives tableSize counts 0 (by omega))
    have h1 : (1 : ℕ) ∈ l :=
      hperm.mem_iff.mpr (mem_init_table_negatives tableSize counts 1 (by omega))
    by_cases ht : t = 0
    · exact ⟨1, h1, by omega⟩
    · exact ⟨0, h0, fun h => ht h.symm⟩

/-- C9 (witness): the theorem applied at the concrete table `[0, 1]` with
cursor 0 and target 0. -/
theorem c9_witness :
    (0 : ℕ) < ([0, 1] : List ℕ).length ∧
    (((∃ x ∈ ([0, 1] : List ℕ), x ≠ 0) ↔
        ∃ r p, get_negative [0, 1] 0 0 = some (r, p))
      ∧ ((∀ x ∈ ([0, 1] : List ℕ), x = 0) →
          ∀ fuel pos, pos < ([0, 1] : List ℕ).length →
            getNegativeAux [0, 1] 0 fuel pos = none)
      ∧ (∀ r p, get_negative [0, 1] 0 0 = some (r, p) → r ≠ 0)
      ∧ (∀ (tableSize : ℕ) (counts : List ℕ), 2 ≤ counts.length →
          (∀ c ∈ counts, 1 ≤ c) →
          ∀ (t : ℕ) (l : List ℕ), l.Perm (init_table_negatives tableSize counts) →
            ∃ x ∈ l, x ≠ t)) :=
  ⟨by decide, c9_get_negative [0, 1] 0 0 (by decide)⟩

/-! ### C8: sentence vectors and self-similarity -/

/-- Inner `for j in range(i+1, line_size)` loop of
`ModelDictionary.add_ngrams` for one start position `i`: roll the hash
`h = h*116049371 + line[j]` and append `size + (h % bucket)`, breaking once
`j >= i + n`.  The fold state is `(h, emitted ids, broken)`; indices below
`line_size` always read the original `context` (appends happen past it). -/
def addNgramsInner (size bucket n : ℕ) (line0 : List ℕ) (i : ℕ) : List ℕ :=
  ((List.range' (i + 1) (line0.length - (i + 1))).foldl
    (fun (st : ℕ × List ℕ × Bool) j =>
      if st.2.2 then st
      else if i + n ≤ j then (st.1, st.2.1, true)
      else
        let h := st.1 * 116049371 + line0.getD j 0
        (h, st.2.1 ++ [size + h % bucket], false))
    (line0.getD i 0, [], false)).2.1

/-- `ModelDictionary.add_ngrams` (inference path, no dropout):
`line = list(context)` followed by the word-ngram ids appended for each
start position in order. -/
def add_ngrams (size bucket : ℕ) (context : List ℕ) (n : ℕ) : List ℕ :=
  context ++ (List.range context.length).flatMap (addNgramsInner size bucket n context)

/-- `np.dot` over the first `vsize` coordinates (vectors are modelled as
functions `ℕ → ℝ`; all vectors involved live in `ℝ^vsize`). -/
noncomputable def dotR (vsize : ℕ) (u v : ℕ → ℝ) : ℝ :=
  ∑ c ∈ Finset.range vsize, u c * v c

/-- Modelled from the spec: `gensim.matutils.unitvec` is not under `src/`;
the spec specifies "dot product of the L2-unit-normalized vectors", i.e.
`v / ‖v‖₂`.  At the zero vector the quotient is `0/0 = 0` under Lean's
division convention, i.e. the zero vector is returned unchanged — which is
also what `matutils.unitvec` does (`if veclen > 0` guard). -/
noncomputable def unitvec (vsize : ℕ) (v : ℕ → ℝ) : ℕ → ℝ :=
  fun c => v c / Real.sqrt (dotR vsize v v)

/-- The pure tail of `Sent2Vec.sentence_vectors` after `get_line`:
`line = add_ngrams(words, word_ngrams)`; sum the `wi` rows over `line`;
scale by `1/len(line)` only when `line` is non-empty. -/
noncomputable def sentVecOfWords (wi : ℕ → ℕ → ℝ) (size bucket wordNgrams : ℕ)
    (words : List ℕ) : ℕ → ℝ :=
  let line := add_ngrams size bucket words wordNgrams
  let sentVec : ℕ → ℝ := fun c => (line.map fun i => wi i c).sum
  if 0 < line.length then fun c => sentVec c * (1 / (line.length : ℝ)) else sentVec

/-- `Sent2Vec.sentence_vectors`. -/
noncomputable def sentence_vectors (d : Dict) (wi : ℕ → ℕ → ℝ) (wordNgrams : ℕ)
    (sentence : List (List ℕ)) : Option (ℕ → ℝ) :=
  (get_line d sentence).map fun r => sentVecOfWords wi d.size d.bucket wordNgrams r.2.2

/-- `Sent2Vec.similarity`: the dot product of the unit-normalized sentence
vectors. -/
noncomputable def similarity (d : Dict) (wi : ℕ → ℕ → ℝ) (vsize wordNgrams : ℕ)
    (s1 s2 : List (List ℕ)) : Option ℝ := do
  let v1 ← sentence_vectors d wi wordNgrams s1
  let v2 ← sentence_vectors d wi wordNgrams s2
  pure (dotR vsize (unitvec vsize v1) (unitvec vsize v2))

lemma dotR_self_nonneg (vsize : ℕ) (v : ℕ → ℝ) : 0 ≤ dotR vsize v v :=
  Finset.sum_nonneg fun c _ => mul_self_nonneg (v c)

lemma dotR_unitvec_self (vsize : ℕ) (v : ℕ → ℝ) (hnz : dotR vsize v v ≠ 0) :
    dotR vsize (unitvec vsize v) (unitvec vsize v) = 1 := by
  have hnn : 0 ≤ dotR vsize v v := dotR_self_nonneg vsize v
  have h1 : dotR vsize (unitvec vsize v) (unitvec vsize v)
      = dotR vsize v v /
        (Real.sqrt (dotR vsize v v) * Real.sqrt (dotR vsize v v)) := by
    simp only [unitvec, dotR, div_mul_div_comm]
    rw [← Finset.sum_div]
  rw [h1, Real.mul_self_sqrt hnn]
  exact div_self hnz

/-- C8 (counterexample): the claim quantifies over **every** sentence, but
for a sentence whose resolved id list is empty (here the empty sentence;
an all-out-of-vocabulary sentence behaves the same) the sentence vector is
the zero vector, unit-normalization leaves it zero, and
`similarity(s, s) = 0`, not `1`. -/
theorem c8_counterexample :
    similarity dictABABC (fun _ _ => 1) 2 2 [] [] = some 0 ∧ (0 : ℝ) ≠ 1 := by
  constructor
  · simp [similarity, sentence_vectors, get_line, getLineAux, sentVecOfWords,
      add_ngrams, unitvec, dotR]
  · norm_num

/-- C8 (amended): `similarity(s, s)` equals exactly 1 (in real arithmetic)
for every sentence `s` that resolves (`get_line` terminates) and whose
sentence vector is non-zero — equivalently, whose squared norm
`dotR v v` is non-zero; for a sentence with zero sentence vector (e.g. an
empty or fully out-of-vocabulary sentence, cf. `c8_counterexample`) it is
`0` instead. -/
theorem c8_amended (d : Dict) (wi : ℕ → ℕ → ℝ) (vsize wordNgrams : ℕ)
    (s : List (List ℕ)) (gl : ℕ × List ℕ × List ℕ)
    (hgl : get_line d s = some gl)
    (hnz : dotR vsize (sentVecOfWords wi d.size d.bucket wordNgrams gl.2.2)
        (sentVecOfWords wi d.size d.bucket wordNgrams gl.2.2) ≠ 0) :
    similarity d wi vsize wordNgrams s s = some 1 := by
  simp only [similarity, sentence_vectors, hgl, Option.map_some', Option.some_bind,
    Option.bind_eq_bind]
  rw [dotR_unitvec_self vsize _ hnz]
  rfl

/-- C8 (witness): the amended theorem applied to the sentence `["a"]` over
the concrete vocabulary `dictABABC` with all-ones `wi`, `vector_size = 1`,
`word_ngrams = 2`. -/
theorem c8_amended_witness :
    get_line dictABABC [[97]] = some (1, [hash_ [97]], [0]) ∧
    dotR 1 (sentVecOfWords (fun _ _ => 1) dictABABC.size dictABABC.bucket 2 [0])
        (sentVecOfWords (fun _ _ => 1) dictABABC.size dictABABC.bucket 2 [0]) ≠ 0 ∧
    similarity dictABABC (fun _ _ => 1) 1 2 [[97]] [[97]] = some 1 := by
  have h1 : get_line dictABABC [[97]] = some (1, [hash_ [97]], [0]) := by decide
  have hline : add_ngrams dictABABC.size dictABABC.bucket [0] 2 = [0] := by decide
  have hv : ∀ c, sentVecOfWords (fun _ _ => (1 : ℝ)) dictABABC.size dictABABC.bucket 2 [0] c
      = 1 := by
    intro c
    simp [sentVecOfWords, hline]
  have h2 : dotR 1 (sentVecOfWords (fun _ _ => 1) dictABABC.size dictABABC.bucket 2 [0])
      (sentVecOfWords (fun _ _ => 1) dictABABC.size dictABABC.bucket 2 [0]) ≠ 0 := by
    simp [dotR, hv]
  exact ⟨h1, h2, c8_amended dictABABC (fun _ _ => 1) 1 2 [[97]]
    (1, [hash_ [97]], [0]) h1 h2⟩

/-! ### C10: the inputs of `update` during slow-path training -/

/-- The random marking loop of `add_ngrams_train`:
`while num_discarded < k and line_size - num_discarded > 2: token = randint(0, line_size-1); if not discard[token]: mark it`.
`rng step` models the `randint(0, line_size - 1)` draw at the given step
(reduced `mod line_size` to stay in range); `fuel` bounds the loop
iterations and `none` models the loop never finishing (an adversarial rng
that forever redraws already-marked positions). -/
def markDiscardsAux (rng : ℕ → ℕ) (k lineSize : ℕ) :
    ℕ → ℕ → ℕ → List Bool → Option (List Bool)
  | 0, _, _, _ => none
  | fuel + 1, numDiscarded, step, discard =>
    if numDiscarded < k ∧ 2 < lineSize - numDiscarded then
      let tokenToDiscard := rng step % lineSize
      if discard.getD tokenToDiscard false = false then
        markDiscardsAux rng k lineSize fuel (numDiscarded + 1) (step + 1)
          (discard.set tokenToDiscard true)
      else
        markDiscardsAux rng k lineSize fuel numDiscarded (step + 1) discard
    else
      some discard

/-- Inner `for j in range(i+1, line_size)` loop of `add_ngrams_train` for
one start position `i`: like `addNgramsInner`, but the loop also breaks on
a discarded position `j`. -/
def addNgramsTrainInner (size bucket n : ℕ) (discard : List Bool) (line0 : List ℕ)
    (i : ℕ) : List ℕ :=
  ((List.range' (i + 1) (line0.length - (i + 1))).foldl
    (fun (st : ℕ × List ℕ × Bool) j =>
      if st.2.2 then st
      else if i + n ≤ j ∨ discard.getD j false = true then (st.1, st.2.1, true)
      else
        let h := st.1 * 116049371 + line0.getD j 0
        (h, st.2.1 ++ [size + h % bucket], false))
    (line0.getD i 0, [], false)).2.1

/-- The append phase of `add_ngrams_train` given the discard flags:
`line = list(context)` plus, for each non-discarded start position, the
rolled word-ngram ids.  The result always extends `context`. -/
def addNgramsTrainLine (size bucket n : ℕ) (discard : List Bool)
    (context : List ℕ) : List ℕ :=
  context ++ (List.range context.length).flatMap fun i =>
    if discard.getD i false = true then []
    else addNgramsTrainInner size bucket n discard context i

/-- `ModelDictionary.add_ngrams_train`: random marking (fuel/rng) followed
by the append phase; `none` when the marking loop does not finish. -/
def add_ngrams_train (size bucket : ℕ) (rng : ℕ → ℕ) (fuel : ℕ)
    (context : List ℕ) (n k : ℕ) : Option (List ℕ) :=
  (markDiscardsAux rng k context.length fuel 0 0
      (List.replicate context.length false)).map
    fun discard => addNgramsTrainLine size bucket n discard context

/-- Scanner state for the update calls of the slow-path `_do_train_job`:
the list of `input_` arguments passed to `update` so far, the index of the
next `uniform(0,1)`-vs-`pdiscard` comparison, the index of the next
`add_ngrams_train` call, and whether the job hung (a fuel-modelled loop
never returned, after which no further call happens). -/
structure TrainJobScan where
  inputs : List (List ℕ)
  drawIdx : ℕ
  callIdx : ℕ
  aborted : Bool

/-- One `i` of the `for i in range(len(words))` loop of `_do_train_job`:
`discardDraw` gives the outcome of
`self.random.uniform(0, 1) > self.dict.pdiscard[words[i]]` (a fresh draw
per position; `true` means the position is skipped), `rng2 c` is the
`randint` stream of the `c`-th `add_ngrams_train` call.  Otherwise
`context = list(words); context[i] = 0` is expanded and passed to
`update` (whose arithmetic mutates only `wi`/`wo`/`negpos` and cannot
influence which calls are made, so the scanner only records the inputs). -/
def doTrainJobScanIndex (d : Dict) (wordNgrams dropoutk fuel : ℕ)
    (discardDraw : ℕ → Bool) (rng2 : ℕ → ℕ → ℕ) (words : List ℕ)
    (st : TrainJobScan) (i : ℕ) : TrainJobScan :=
  if st.aborted then st
  else if discardDraw st.drawIdx then { st with drawIdx := st.drawIdx + 1 }
  else
    -- `context = list(words); context[i] = 0`
    match add_ngrams_train d.size d.bucket (rng2 st.callIdx) fuel (words.set i 0)
        wordNgrams dropoutk with
    | none => { st with drawIdx := st.drawIdx + 1, aborted := true }
    | some input =>
      { inputs := st.inputs ++ [input], drawIdx := st.drawIdx + 1,
        callIdx := st.callIdx + 1, aborted := false }

/-- One sentence of the slow-path `_do_train_job`: resolve with
`get_line`; a sentence trains only when more than one word resolves
(`if len(words) > 1`). -/
def doTrainJobScanSentence (d : Dict) (wordNgrams dropoutk fuel : ℕ)
    (discardDraw : ℕ → Bool) (rng2 : ℕ → ℕ → ℕ)
    (st : TrainJobScan) (sentence : List (List ℕ)) : TrainJobScan :=
  if st.aborted then st
  else
    match get_line d sentence with
    | none => { st with aborted := true }
    | some r =>
      -- `words` is the resolved id list returned by `get_line`
      if 1 < r.2.2.length then
        (List.range r.2.2.length).foldl
          (doTrainJobScanIndex d wordNgrams dropoutk fuel discardDraw rng2 r.2.2) st
      else st

/-- The `input_` lists passed to `update` by the slow-path `_do_train_job`
over one job's sentences, for given random-draw oracles. -/
def doTrainJobUpdateInputs (d : Dict) (wordNgrams dropoutk fuel : ℕ)
    (discardDraw : ℕ → Bool) (rng2 : ℕ → ℕ → ℕ)
    (sentences : List (List (List ℕ))) : List (List ℕ) :=
  (sentences.foldl
    (doTrainJobScanSentence d wordNgrams dropoutk fuel discardDraw rng2)
    { inputs := [], drawIdx := 0, callIdx := 0, aborted := false }).inputs

/-- The shared training state mutated by `update`: the two embedding
matrices and the negative-sampling table with its shared cursor. -/
structure NetState where
  wi : ℕ → ℕ → ℝ
  wo : ℕ → ℕ → ℝ
  negatives : List ℕ
  negpos : ℕ

/-- `Sent2Vec.sigmoid`. -/
noncomputable def sigmoid (val : ℝ) : ℝ := 1.0 / (1.0 + Real.exp (-val))

/-- `Sent2Vec.binary_logistic`: computes the score against `hidden`,
accumulates `grad += wo[target] * alpha`, immediately updates
`wo[target] += hidden * alpha` in place, and returns the loss contribution
`-log(score)` (true label) or `-log(1 - score)` (negative). -/
noncomputable def binary_logistic (vsize : ℕ) (hidden : ℕ → ℝ) (st : NetState)
    (grad : ℕ → ℝ) (target : ℕ) (label : Bool) (lr : ℝ) :
    NetState × (ℕ → ℝ) × ℝ :=
  let score := sigmoid (dotR vsize (st.wo target) hidden)
  let alpha := lr * ((if label then 1 else 0) - score)
  let grad' := fun c => grad c + st.wo target c * alpha
  let wo' := fun i c => if i = target then st.wo i c + hidden c * alpha else st.wo i c
  ({ st with wo := wo' }, grad',
    if label then -Real.log score else -Real.log (1 - score))

/-- `Sent2Vec.negative_sampling`: reset `grad` to zeros, then `neg + 1`
`binary_logistic` steps — the true target first, then `neg` draws via
`get_negative` (each advancing the shared cursor); `none` when a draw's
scan loop never terminates. -/
noncomputable def negative_sampling (vsize neg : ℕ) (hidden : ℕ → ℝ)
    (st : NetState) (target : ℕ) (lr : ℝ) :
    Option (NetState × (ℕ → ℝ) × ℝ) :=
  (List.range (neg + 1)).foldlM
    (fun (acc : NetState × (ℕ → ℝ) × ℝ) i =>
      if i = 0 then
        let r := binary_logistic vsize hidden acc.1 acc.2.1 target true lr
        some (r.1, r.2.1, acc.2.2 + r.2.2)
      else
        match get_negative acc.1.negatives acc.1.negpos target with
        | none => none
        | some (negId, negpos') =>
          let st' := { acc.1 with negpos := negpos' }
          let r := binary_logistic vsize hidden st' acc.2.1 negId false lr
          some (r.1, r.2.1, acc.2.2 + r.2.2))
    (st, fun _ => 0, 0)

/-- Outcomes of `Sent2Vec.update`. -/
inductive UpdateResult where
  | assertionFailed
  | noneReturned
  | diverged
  | ok (loss : ℝ) (st : NetState)

/-- `Sent2Vec.update`: `assert(target >= 0)` is trivial over `ℕ`;
`assert(target < self.dict.size)` is `assertionFailed` when violated; the
early-return branch `if len(input_) == 0: return` yields Python `None`
(`noneReturned`, the branch C10 is about); otherwise `hidden` is the mean
of the `wi` rows over `input_` (with multiplicity), `negative_sampling`
runs, `grad` is scaled by `1/len(input_)` and added to `wi[i]` once per
occurrence of `i` in `input_`. -/
noncomputable def update (vsize neg dictSize : ℕ) (st : NetState)
    (input : List ℕ) (target : ℕ) (lr : ℝ) : UpdateResult :=
  if ¬ target < dictSize then .assertionFailed
  else if input.length = 0 then .noneReturned
  else
    -- `hidden` = mean of the `wi` rows over `input_` (with multiplicity)
    match negative_sampling vsize neg
        (fun c => ((input.map fun i => st.wi i c).sum) * (1 / (input.length : ℝ)))
        st target lr with
    | none => .diverged
    | some (st', grad, loss) =>
      let grad' := fun c => grad c * (1 / (input.length : ℝ))
      let wi' := fun i c => st'.wi i c + (input.count i : ℝ) * grad' c
      .ok loss { st' with wi := wi' }

lemma addNgramsTrainLine_length (size bucket n : ℕ) (discard : List Bool)
    (context : List ℕ) :
    context.length ≤ (addNgramsTrainLine size bucket n discard context).length := by
  unfold addNgramsTrainLine
  rw [List.length_append]
  omega

lemma add_ngrams_train_length (size bucket : ℕ) (rng : ℕ → ℕ) (fuel : ℕ)
    (context : List ℕ) (n k : ℕ) (l : List ℕ)
    (h : add_ngrams_train size bucket rng fuel context n k = some l) :
    context.length ≤ l.length := by
  unfold add_ngrams_train at h
  obtain ⟨discard, _, hl⟩ := Option.map_eq_some'.mp h
  rw [← hl]
  exact addNgramsTrainLine_length size bucket n discard context

lemma doTrainJobScanIndex_inputs (d : Dict) (wordNgrams dropoutk fuel : ℕ)
    (discardDraw : ℕ → Bool) (rng2 : ℕ → ℕ → ℕ) (words : List ℕ)
    (hwords : 1 < words.length) (st : TrainJobScan) (i : ℕ)
    (hst : ∀ l ∈ st.inputs, 2 ≤ l.length) :
    ∀ l ∈ (doTrainJobScanIndex d wordNgrams dropoutk fuel discardDraw rng2 words
        st i).inputs, 2 ≤ l.length := by
  unfold doTrainJobScanIndex
  split
  · exact hst
  · split
    · simpa using hst
    · split
      · simpa using hst
      · next input hng =>
        intro l hl
        simp only [List.mem_append, List.mem_singleton] at hl
        rcases hl with hl | hl
        · exact hst l hl
        · subst hl
          have hlen := add_ngrams_train_length d.size d.bucket (rng2 st.callIdx) fuel
            (words.set i 0) wordNgrams dropoutk l hng
          rw [List.length_set] at hlen
          omega

lemma scanFold_inputs (d : Dict) (wordNgrams dropoutk fuel : ℕ)
    (discardDraw : ℕ → Bool) (rng2 : ℕ → ℕ → ℕ) (words : List ℕ)
    (hwords : 1 < words.length) :
    ∀ (idxs : List ℕ) (st : TrainJobScan), (∀ l ∈ st.inputs, 2 ≤ l.length) →
      ∀ l ∈ (idxs.foldl
          (doTrainJobScanIndex d wordNgrams dropoutk fuel discardDraw rng2 words)
          st).inputs, 2 ≤ l.length := by
  intro idxs
  induction idxs with
  | nil => intro st hst; simpa using hst
  | cons i rest ih =>
    intro st hst
    rw [List.foldl_cons]
    exact ih _ (doTrainJobScanIndex_inputs d wordNgrams dropoutk fuel discardDraw
      rng2 words hwords st i hst)

lemma doTrainJobScanSentence_inputs (d : Dict) (wordNgrams dropoutk fuel : ℕ)
    (discardDraw : ℕ → Bool) (rng2 : ℕ → ℕ → ℕ) (st : TrainJobScan)
    (sentence : List (List ℕ)) (hst : ∀ l ∈ st.inputs, 2 ≤ l.length) :
    ∀ l ∈ (doTrainJobScanSentence d wordNgrams dropoutk fuel discardDraw rng2
        st sentence).inputs, 2 ≤ l.length := by
  unfold doTrainJobScanSentence
  split
  · exact hst
  · split
    · simpa using hst
    · next r hgl =>
      split
      · next hw =>
        exact scanFold_inputs d wordNgrams dropoutk fuel discardDraw rng2 r.2.2 hw
          (List.range r.2.2.length) st hst
      · exact hst

lemma scanSentences_inputs (d : Dict) (wordNgrams dropoutk fuel : ℕ)
    (discardDraw : ℕ → Bool) (rng2 : ℕ → ℕ → ℕ) :
    ∀ (sentences : List (List (List ℕ))) (st : TrainJobScan),
      (∀ l ∈ st.inputs, 2 ≤ l.length) →
      ∀ l ∈ (sentences.foldl
          (doTrainJobScanSentence d wordNgrams dropoutk fuel discardDraw rng2)
          st).inputs, 2 ≤ l.length := by
  intro sentences
  induction sentences with
  | nil => intro st hst; simpa using hst
  | cons s rest ih =>
    intro st hst
    rw [List.foldl_cons]
    exact ih _ (doTrainJobScanSentence_inputs d wordNgrams dropoutk fuel
      discardDraw rng2 st s hst)

lemma update_ne_noneReturned (vsize neg dictSize : ℕ) (st : NetState)
    (input : List ℕ) (target : ℕ) (lr : ℝ) (hne : input ≠ []) :
    update vsize neg dictSize st input target lr ≠ UpdateResult.noneReturned := by
  unfold update
  split
  · exact fun h => UpdateResult.noConfusion h
  · split
    · next hlen => exact absurd (List.length_eq_zero.mp hlen) hne
    · split
      · exact fun h => UpdateResult.noConfusion h
      · exact fun h => UpdateResult.noConfusion h

/-- C10 (confirmed): every `input_` list that the slow-path
`_do_train_job` passes to `update` has at least `len(words) ≥ 2` elements
(a sentence trains only when more than one word resolves, `context` keeps
the full length with position `i` zeroed, and `add_ngrams_train` starts
from `line = list(context)` and only appends) — for **every** outcome of
the random draws; and `update` takes its empty-input early-return branch
(which returns no loss value) only when the input list is empty, so that
branch is unreachable during training. -/
theorem c10_update_inputs (d : Dict) (wordNgrams dropoutk fuel : ℕ)
    (discardDraw : ℕ → Bool) (rng2 : ℕ → ℕ → ℕ)
    (sentences : List (List (List ℕ))) :
    (∀ l ∈ doTrainJobUpdateInputs d wordNgrams dropoutk fuel discardDraw rng2
        sentences, 2 ≤ l.length ∧ l ≠ [])
    ∧ (∀ (vsize neg dictSize : ℕ) (st : NetState) (input : List ℕ)
        (target : ℕ) (lr : ℝ), input ≠ [] →
        update vsize neg dictSize st input target lr
          ≠ UpdateResult.noneReturned) := by
  constructor
  · intro l hl
    unfold doTrainJobUpdateInputs at hl
    have h2 := scanSentences_inputs d wordNgrams dropoutk fuel discardDraw rng2
      sentences { inputs := [], drawIdx := 0, callIdx := 0, aborted := false }
      (by intro l hl'; simp at hl') l hl
    refine ⟨h2, ?_⟩
    intro hnil
    rw [hnil] at h2
    simp at h2
  · exact fun vsize neg dictSize st input target lr hne =>
      update_ne_noneReturned vsize neg dictSize st input target lr hne

/-- C10 (witness): the theorem applied to the concrete vocabulary
`dictABABC`, the 5-token corpus, never-skip discard draws, the identity
randint stream and fuel 10: the first update input is `[0,1,0,1,3]`
(length 5 ≥ 2), and `update` with a concrete non-empty input does not take
the empty-input branch. -/
theorem c10_witness :
    ([0, 1, 0, 1, 3] ∈ doTrainJobUpdateInputs dictABABC 2 2 10 (fun _ => false)
        (fun _ s => s) corpusABABC
      ∧ 2 ≤ ([0, 1, 0, 1, 3] : List ℕ).length ∧ ([0, 1, 0, 1, 3] : List ℕ) ≠ [])
    ∧ update 1 10 2 ⟨fun _ _ => 0, fun _ _ => 0, [0, 1], 1⟩ [0, 1, 0, 1, 3] 0 1
        ≠ UpdateResult.noneReturned := by
  have hmem : ([0, 1, 0, 1, 3] : List ℕ) ∈ doTrainJobUpdateInputs dictABABC 2 2 10
      (fun _ => false) (fun _ s => s) corpusABABC := by decide
  have h := c10_update_inputs dictABABC 2 2 10 (fun _ => false) (fun _ s => s)
    corpusABABC
  exact ⟨⟨hmem, h.1 _ hmem⟩,
    h.2 1 10 2 ⟨fun _ _ => 0, fun _ _ => 0, [0, 1], 1⟩ [0, 1, 0, 1, 3] 0 1
      (by decide)⟩

end Sent2VecModel
